import Mathlib

/-!
# Verification of the A* pathfinding engine of `a-star-example` (`main.py`)

This file gives a shallow embedding of the A* search engine in `main.py` and
proves/refutes the specification's claims about it.

Modelling decisions, each tied to the source:

* A Python `City` object is identified by a natural number (`City := ℕ`): Python
  compares cities with `==`, which for `City` (no custom equality) is object
  identity, so a bijection between the finitely many city objects and indices is
  faithful.  The adjacency lists (`city.neighbours`) become a function
  `nbrs : City → List City`, and the graph's size bound is a parameter `n`
  (all cities are `< n`).

* `City.distance_to` returns `sqrt((Δlat)² + (Δlon)²)`, an irrational real in
  general.  The embedding abstracts the number type as an arbitrary linearly
  ordered commutative ring `α` (which includes the reals, so every theorem below
  covers the idealised real-number reading of the source) and the metric as a
  function `d : City → City → α`.  Theorems that need the metric to be genuinely
  Euclidean carry the exact characterisation
  `0 ≤ d u v ∧ (d u v)² = sqDist (coords u) (coords v)`, where `sqDist` is the
  square of the source's `distance_to`.  The concrete graphs used for
  refutations and witnesses are built from Pythagorean triples, so every
  distance the program computes on them is an exact integer; on such inputs
  Python's IEEE floating point is exact as well (sums and comparisons of small
  integers, and square roots of perfect squares, are exact), so the concrete
  runs below coincide with the real program's runs.

* The Python `Node` class (a search node with `city`, `parent`, `g`, `h`, `f`)
  becomes the inductive `Node` below.  In the Python code a node placed in the
  closed list is never mutated afterwards (the update loop at lines 86-94 only
  scans `open_list`), so copying a parent node by value at link time is
  faithful.

* The `while` loop of `a_star` runs with a fuel parameter; fuel exhaustion is
  the `none` result of `aStarLoop`, distinguished from the source's
  `return None` (which is `some (none, _)`).  `a_star` calls the loop with fuel
  `n + 1`, and the termination theorem proves fuel is never exhausted on a
  well-formed graph.  For specification purposes the loop also returns the
  final closed list; `a_star` discards it, exactly as the source only returns
  the path.
-/

abbrev City := ℕ

/-- Search node: embedding of the Python `Node` class (`main.py` lines 21-31).
`root c g h f` is a node with `parent = None`; `child c g h f p` has parent `p`.
`Node(parent, city)` in Python always initialises `g = h = f = 0`; the caller
then assigns the real values, so the constructors here take them directly. -/
inductive Node (α : Type) : Type where
  | root (city : City) (g h f : α)
  | child (city : City) (g h f : α) (parent : Node α)
deriving DecidableEq, Repr

namespace Node

variable {α : Type}

def city : Node α → City
  | .root c _ _ _ => c
  | .child c _ _ _ _ => c

def g : Node α → α
  | .root _ x _ _ => x
  | .child _ x _ _ _ => x

def h : Node α → α
  | .root _ _ x _ => x
  | .child _ _ x _ _ => x

def f : Node α → α
  | .root _ _ _ x => x
  | .child _ _ _ x _ => x

def parent : Node α → Option (Node α)
  | .root _ _ _ _ => none
  | .child _ _ _ _ p => some p

/-- The list of cities collected by walking the parent chain, current city
first: embedding of the reconstruction loop in `a_star` (lines 63-66).
The source then reverses it (line 68). -/
def backPath : Node α → List City
  | .root c _ _ _ => [c]
  | .child c _ _ _ p => c :: p.backPath

@[simp] theorem city_root (c : City) (g h f : α) : (Node.root c g h f).city = c := rfl

@[simp] theorem city_child (c : City) (g h f : α) (p : Node α) :
    (Node.child c g h f p).city = c := rfl

@[simp] theorem g_root (c : City) (g h f : α) : (Node.root c g h f).g = g := rfl

@[simp] theorem g_child (c : City) (g h f : α) (p : Node α) :
    (Node.child c g h f p).g = g := rfl

@[simp] theorem h_root (c : City) (g h f : α) : (Node.root c g h f).h = h := rfl

@[simp] theorem h_child (c : City) (g h f : α) (p : Node α) :
    (Node.child c g h f p).h = h := rfl

@[simp] theorem f_root (c : City) (g h f : α) : (Node.root c g h f).f = f := rfl

@[simp] theorem f_child (c : City) (g h f : α) (p : Node α) :
    (Node.child c g h f p).f = f := rfl

@[simp] theorem parent_root (c : City) (g h f : α) : (Node.root c g h f).parent = none := rfl

@[simp] theorem parent_child (c : City) (g h f : α) (p : Node α) :
    (Node.child c g h f p).parent = some p := rfl

end Node

section Engine

variable {α : Type} [LinearOrderedCommRing α]

/-- Embedding of `Node(None, start)` as built at `main.py` line 42:
the constructor leaves `g = h = f = 0`. -/
def initNode (start : City) : Node α := .root start 0 0 0

/-- Embedding of the heuristic function `calc_heuristic` (lines 34-37):
the distance from a city to the goal city. -/
def calc_heuristic (d : City → City → α) (c goal : City) : α := d c goal

/-- Embedding of the minimum-`f` scan (lines 49-55): start from
`best = open_list[0]`, `bestIdx = 0`, and replace the running best exactly
when a strictly smaller `f` is found. `i` is the index of the head of the
remaining list. -/
def findBest : Node α × ℕ → ℕ → List (Node α) → Node α × ℕ
  | best, _, [] => best
  | (b, bi), i, x :: xs =>
    if x.f < b.f then findBest (x, i) (i + 1) xs else findBest (b, bi) (i + 1) xs

/-- Embedding of the body of the neighbour loop (lines 70-97) for one
neighbour city `nc` of the current node `cur`: skip if `nc` is in the closed
list; otherwise build the candidate node with `g' = cur.g + d cur.city nc`,
`h' = d nc goal`, `f' = g' + h'`; if `nc` is already in the open list, update
the matching entry's `g` and `parent` when `g'` improves it (its `h` and `f`
are left as they are, exactly as in the source) and do not append; otherwise
append the new node. -/
def processNeighbour (d : City → City → α) (goal : City) (cur : Node α)
    (closedL : List (Node α)) (openL : List (Node α)) (nc : City) : List (Node α) :=
  if closedL.any (fun nd => nc == nd.city) then openL
  else
    let g' := cur.g + d cur.city nc
    let h' := calc_heuristic d nc goal
    let f' := g' + h'
    if openL.any (fun nd => nc == nd.city) then
      openL.map (fun nd =>
        if nc = nd.city ∧ g' < nd.g then Node.child nc g' nd.h nd.f cur else nd)
    else openL ++ [Node.child nc g' h' f' cur]

/-- Embedding of the whole neighbour loop (line 70): fold
`processNeighbour` over the current city's neighbour list. -/
def expandNeighbours (nbrs : City → List City) (d : City → City → α) (goal : City)
    (cur : Node α) (closedL : List (Node α)) (openL : List (Node α)) : List (Node α) :=
  (nbrs cur.city).foldl (processNeighbour d goal cur closedL) openL

/-- Embedding of the `while` loop of `a_star` (lines 48-98), with explicit fuel.
`some (some nd, closedF)` means the goal was selected with search node `nd`
(the source reconstructs and returns its path); `some (none, closedF)` means
the open list became empty (the source's `return None`); `none` means the fuel
ran out (impossible for the fuel used by `a_star`, see the termination
theorem). The final closed list is returned alongside for specification. -/
def aStarLoop (nbrs : City → List City) (d : City → City → α) (goal : City) :
    ℕ → List (Node α) → List (Node α) → Option (Option (Node α) × List (Node α))
  | _, [], closedL => some (none, closedL)
  | 0, _ :: _, _ => none
  | fuel + 1, hd :: tl, closedL =>
    if ((findBest (hd, 0) 0 (hd :: tl)).1).city = goal then
      some (some (findBest (hd, 0) 0 (hd :: tl)).1,
            closedL ++ [(findBest (hd, 0) 0 (hd :: tl)).1])
    else
      aStarLoop nbrs d goal fuel
        (expandNeighbours nbrs d goal (findBest (hd, 0) 0 (hd :: tl)).1
          (closedL ++ [(findBest (hd, 0) 0 (hd :: tl)).1])
          ((hd :: tl).eraseIdx (findBest (hd, 0) 0 (hd :: tl)).2))
        (closedL ++ [(findBest (hd, 0) 0 (hd :: tl)).1])

/-- Embedding of `a_star(start, goal)` (lines 40-98) on a graph with cities
`< n`, adjacency `nbrs` and metric `d`: run the loop from
`open_list = [start_node]`, `closed_list = []`, and on success return the
reversed parent-chain path. -/
def a_star (n : ℕ) (nbrs : City → List City) (d : City → City → α)
    (start goal : City) : Option (List City) :=
  match aStarLoop nbrs d goal (n + 1) [initNode start] [] with
  | some (some nd, _) => some nd.backPath.reverse
  | _ => none

/-- Square of the Euclidean distance computed by `City.distance_to`
(`main.py` lines 16-18): `distance_to` itself is the square root of this. -/
def sqDist (p q : α × α) : α := (p.1 - q.1) ^ 2 + (p.2 - q.2) ^ 2

/-- `d` agrees with the Euclidean metric of `coords` on every graph edge:
each edge weight is non-negative and its square is the squared straight-line
distance between the endpoints' coordinates. -/
def EdgesEuclid (coords : City → α × α) (nbrs : City → List City)
    (d : City → City → α) (n : ℕ) : Prop :=
  ∀ u, u < n → ∀ v ∈ nbrs u, 0 ≤ d u v ∧ (d u v) ^ 2 = sqDist (coords u) (coords v)

/-- `d` agrees with the Euclidean metric of `coords` between every city and the
goal (the values used as the heuristic). -/
def HeurEuclid (coords : City → α × α) (d : City → City → α)
    (goal : City) (n : ℕ) : Prop :=
  ∀ u, u < n → 0 ≤ d u goal ∧ (d u goal) ^ 2 = sqDist (coords u) (coords goal)

/-- Total summed edge weight of a path (the spec's path cost). -/
def pathCost (d : City → City → α) : List City → α
  | a :: b :: rest => d a b + pathCost d (b :: rest)
  | _ => 0

/-- Reachability by following neighbour links. -/
def Reach (nbrs : City → List City) : City → City → Prop :=
  Relation.ReflTransGen (fun u v => v ∈ nbrs u)

/-- The cities of a list of search nodes. -/
def cityList (l : List (Node α)) : List City := l.map Node.city

/-- The parent chain of a search node consists of edges of the graph and ends
at `start`: walking from the root, every step goes to a neighbour. -/
def chainOK (nbrs : City → List City) (start : City) : Node α → Prop
  | .root c _ _ _ => c = start
  | .child c _ _ _ p => c ∈ nbrs p.city ∧ chainOK nbrs start p

/-- The `g` bookkeeping of a search node is consistent along its parent chain:
the root has `g = 0` and every child has `g = parent.g + d parent.city city`. -/
def gOK (d : City → City → α) : Node α → Prop
  | .root _ g _ _ => g = 0
  | .child c g _ _ p => g = p.g + d p.city c ∧ gOK d p

/-- Every ancestor along the parent chain is an element of the given closed
list (with exactly the field values it had when it was closed). -/
def parentsIn (closedL : List (Node α)) : Node α → Prop
  | .root _ _ _ _ => True
  | .child _ _ _ _ p => p ∈ closedL ∧ parentsIn closedL p

end Engine

section Engine

variable {α : Type} [LinearOrderedCommRing α]

/-- Consecutive entries of the list are neighbours: for every pair `(u, v)` of
consecutive entries, `v` occurs in `u`'s neighbour list. -/
def edgesOK (nbrs : City → List City) : List City → Prop
  | a :: b :: rest => b ∈ nbrs a ∧ edgesOK nbrs (b :: rest)
  | _ => True

def decEdgesOK (nbrs : City → List City) : (l : List City) → Decidable (edgesOK nbrs l)
  | [] => isTrue trivial
  | [_] => isTrue trivial
  | _ :: b :: rest => @instDecidableAnd _ _ _ (decEdgesOK nbrs (b :: rest))

instance (nbrs : City → List City) (l : List City) : Decidable (edgesOK nbrs l) :=
  decEdgesOK nbrs l

/-- Full specification of the running-minimum scan `findBest`, by induction on
the scanned list: either the initial best survives (and is `≤` everything
scanned), or the scan lands on the first element that attains a value strictly
below the initial best and minimal among everything scanned. -/
theorem findBest_go (l : List (Node α)) : ∀ (b : Node α) (bi i : ℕ),
    (findBest (b, bi) i l = (b, bi) ∧ ∀ x ∈ l, b.f ≤ x.f) ∨
    ∃ j, ∃ hj : j < l.length,
      (findBest (b, bi) i l).1 = l.get ⟨j, hj⟩ ∧
      (findBest (b, bi) i l).2 = i + j ∧
      (findBest (b, bi) i l).1.f < b.f ∧
      (∀ x ∈ l, (findBest (b, bi) i l).1.f ≤ x.f) ∧
      ∀ k, ∀ hk : k < j, (findBest (b, bi) i l).1.f < (l.get ⟨k, Nat.lt_trans hk hj⟩).f := by
  induction l with
  | nil =>
    intro b bi i
    exact Or.inl ⟨rfl, by simp⟩
  | cons x xs ih =>
    intro b bi i
    by_cases hx : x.f < b.f
    · have hrw : findBest (b, bi) i (x :: xs) = findBest (x, i) (i + 1) xs := by
        simp [findBest, hx]
      rw [hrw]
      rcases ih x i (i + 1) with ⟨heq, hall⟩ | ⟨j, hj, h1, h2, h3, h4, h5⟩
      · refine Or.inr ⟨0, by simp, ?_, ?_, ?_, ?_, ?_⟩
        · rw [heq]; rfl
        · rw [heq]; rfl
        · rw [heq]; exact hx
        · rw [heq]
          intro y hy
          rcases List.mem_cons.mp hy with heqy | hy'
          · rw [heqy]
          · exact hall y hy'
        · intro k hk
          exact absurd hk (Nat.not_lt_zero k)
      · refine Or.inr ⟨j + 1, by simpa using Nat.succ_lt_succ hj, ?_, ?_, ?_, ?_, ?_⟩
        · exact h1
        · rw [h2]; omega
        · exact lt_trans h3 hx
        · intro y hy
          rcases List.mem_cons.mp hy with heqy | hy'
          · rw [heqy]; exact le_of_lt h3
          · exact h4 y hy'
        · intro k hk
          match k, hk with
          | 0, _ => exact h3
          | k' + 1, hk => exact h5 k' (Nat.lt_of_succ_lt_succ hk)
    · have hble : b.f ≤ x.f := not_lt.mp hx
      have hrw : findBest (b, bi) i (x :: xs) = findBest (b, bi) (i + 1) xs := by
        simp [findBest, hx]
      rw [hrw]
      rcases ih b bi (i + 1) with ⟨heq, hall⟩ | ⟨j, hj, h1, h2, h3, h4, h5⟩
      · refine Or.inl ⟨heq, ?_⟩
        intro y hy
        rcases List.mem_cons.mp hy with heqy | hy'
        · rw [heqy]; exact hble
        · exact hall y hy'
      · refine Or.inr ⟨j + 1, by simpa using Nat.succ_lt_succ hj, ?_, ?_, ?_, ?_, ?_⟩
        · exact h1
        · rw [h2]; omega
        · exact h3
        · intro y hy
          rcases List.mem_cons.mp hy with heqy | hy'
          · rw [heqy]; exact le_of_lt (lt_of_lt_of_le h3 hble)
          · exact h4 y hy'
        · intro k hk
          match k, hk with
          | 0, _ => exact lt_of_lt_of_le h3 hble
          | k' + 1, hk => exact h5 k' (Nat.lt_of_succ_lt_succ hk)

/-- The scan as invoked by the search loop selects an element of the open list
of minimal `f`, and of the elements attaining the minimum it selects the
first one in scan order. -/
theorem findBest_spec (hd : Node α) (tl : List (Node α)) (cur : Node α) (idx : ℕ)
    (hsel : findBest (hd, 0) 0 (hd :: tl) = (cur, idx)) :
    ∃ hlt : idx < (hd :: tl).length,
      (hd :: tl).get ⟨idx, hlt⟩ = cur ∧ (∀ x ∈ hd :: tl, cur.f ≤ x.f) ∧
      ∀ k, ∀ hk : k < idx, cur.f < ((hd :: tl).get ⟨k, Nat.lt_trans hk hlt⟩).f := by
  rcases findBest_go (hd :: tl) hd 0 0 with ⟨heq, hall⟩ | ⟨j, hj, h1, h2, h3, h4, h5⟩
  · rw [heq] at hsel
    injection hsel with hcur hidx
    subst hcur
    subst hidx
    refine ⟨by simp, rfl, hall, ?_⟩
    intro k hk
    exact absurd hk (Nat.not_lt_zero k)
  · rw [hsel] at h1 h2 h3 h4 h5
    have hidx : idx = j := by simpa using h2
    subst hidx
    exact ⟨hj, h1.symm, h4, h5⟩

/-- Removing the element at index `i` and putting it back in front is a
permutation of the original list. -/
theorem get_cons_eraseIdx_perm {β : Type} :
    ∀ (l : List β) (i : ℕ) (h : i < l.length),
      List.Perm (l.get ⟨i, h⟩ :: l.eraseIdx i) l := by
  intro l
  induction l with
  | nil => intro i h; simp at h
  | cons x xs ih =>
    intro i h
    match i with
    | 0 => simp [List.eraseIdx]
    | i' + 1 =>
      have h' : i' < xs.length := by simpa using Nat.lt_of_succ_lt_succ h
      have hget : (x :: xs).get ⟨i' + 1, h⟩ = xs.get ⟨i', h'⟩ := rfl
      have herase : (x :: xs).eraseIdx (i' + 1) = x :: xs.eraseIdx i' := rfl
      rw [hget, herase]
      exact (List.Perm.swap x (xs.get ⟨i', h'⟩) (xs.eraseIdx i')).trans
        (List.Perm.cons x (ih i' h'))

end Engine

section Engine

variable {α : Type} [LinearOrderedCommRing α]

/-- Fold preservation: a predicate preserved by each step is preserved by the
whole fold. -/
theorem foldl_preserve {β γ : Type} (step : β → γ → β) (P : β → Prop) :
    ∀ (l : List γ) (acc : β), (∀ b a, a ∈ l → P b → P (step b a)) → P acc →
      P (l.foldl step acc) := by
  intro l
  induction l with
  | nil => intro acc _ h; exact h
  | cons x xs ih =>
    intro acc hstep hacc
    exact ih (step acc x)
      (fun b a ha hb => hstep b a (List.mem_cons_of_mem x ha) hb)
      (hstep acc x (List.mem_cons_self x xs) hacc)

theorem not_mem_cityList_of_any_false {l : List (Node α)} {nc : City}
    (h : l.any (fun nd => nc == nd.city) = false) : nc ∉ cityList l := by
  intro hmem
  rcases List.mem_map.mp hmem with ⟨nd, hnd, hc⟩
  have h' := List.any_eq_false.mp h nd hnd
  exact h' (by simp [hc])

/-- A neighbour whose city already occurs in the closed list is skipped:
the open list is returned unchanged. -/
theorem processNeighbour_closed_skip (d : City → City → α) (goal : City) (cur : Node α)
    (closedL openL : List (Node α)) (nc : City) (hmem : nc ∈ cityList closedL) :
    processNeighbour d goal cur closedL openL nc = openL := by
  rcases List.mem_map.mp hmem with ⟨nd, hnd, hc⟩
  have hany : closedL.any (fun nd => nc == nd.city) = true :=
    List.any_eq_true.mpr ⟨nd, hnd, by simp [hc]⟩
  rw [processNeighbour, if_pos hany]

/-- Every node in the open list after processing one neighbour is an old open
node, an old open node with `g` and `parent` updated (same `city`, `h`, `f`),
or the freshly created neighbour node. -/
theorem processNeighbour_mem (d : City → City → α) (goal : City) (cur : Node α)
    (closedL openL : List (Node α)) (nc : City) :
    ∀ x ∈ processNeighbour d goal cur closedL openL nc,
      x ∈ openL ∨
      (∃ y ∈ openL, y.city = nc ∧
        x = Node.child nc (cur.g + d cur.city nc) y.h y.f cur) ∨
      x = Node.child nc (cur.g + d cur.city nc) (calc_heuristic d nc goal)
            (cur.g + d cur.city nc + calc_heuristic d nc goal) cur := by
  intro x hx
  by_cases hcl : closedL.any (fun nd => nc == nd.city) = true
  · rw [processNeighbour, if_pos hcl] at hx
    exact Or.inl hx
  · simp only [processNeighbour] at hx
    rw [if_neg hcl] at hx
    by_cases hop : openL.any (fun nd => nc == nd.city) = true
    · rw [if_pos hop] at hx
      rcases List.mem_map.mp hx with ⟨y, hy, hupd⟩
      by_cases hcond : nc = y.city ∧ cur.g + d cur.city nc < y.g
      · rw [if_pos hcond] at hupd
        exact Or.inr (Or.inl ⟨y, hy, hcond.1.symm, hupd.symm⟩)
      · rw [if_neg hcond] at hupd
        exact Or.inl (hupd ▸ hy)
    · rw [if_neg hop] at hx
      rcases List.mem_append.mp hx with hx' | hx'
      · exact Or.inl hx'
      · exact Or.inr (Or.inr (List.mem_singleton.mp hx'))

/-- Effect of processing one neighbour on the multiset of open cities: either
the cities are unchanged (skip or in-place update), or the neighbour's city is
appended and it occurred neither in the open nor in the closed list. -/
theorem processNeighbour_cities (d : City → City → α) (goal : City) (cur : Node α)
    (closedL openL : List (Node α)) (nc : City) :
    cityList (processNeighbour d goal cur closedL openL nc) = cityList openL ∨
    (cityList (processNeighbour d goal cur closedL openL nc) = cityList openL ++ [nc] ∧
      nc ∉ cityList openL ∧ nc ∉ cityList closedL) := by
  by_cases hcl : closedL.any (fun nd => nc == nd.city) = true
  · rw [processNeighbour, if_pos hcl]
    exact Or.inl rfl
  · by_cases hop : openL.any (fun nd => nc == nd.city) = true
    · refine Or.inl ?_
      have hres : processNeighbour d goal cur closedL openL nc =
          openL.map (fun nd =>
            if nc = nd.city ∧ cur.g + d cur.city nc < nd.g then
              Node.child nc (cur.g + d cur.city nc) nd.h nd.f cur
            else nd) := by
        simp only [processNeighbour]
        rw [if_neg hcl, if_pos hop]
      rw [hres]
      unfold cityList
      rw [List.map_map]
      refine List.map_congr_left ?_
      intro y _
      by_cases hcond : nc = y.city ∧ cur.g + d cur.city nc < y.g
      · simp only [Function.comp_apply, if_pos hcond, Node.city_child]
        exact hcond.1
      · simp only [Function.comp_apply, if_neg hcond]
    · have hres : processNeighbour d goal cur closedL openL nc =
          openL ++ [Node.child nc (cur.g + d cur.city nc) (calc_heuristic d nc goal)
            (cur.g + d cur.city nc + calc_heuristic d nc goal) cur] := by
        simp only [processNeighbour]
        rw [if_neg hcl, if_neg hop]
      have hopf : openL.any (fun nd => nc == nd.city) = false :=
        Bool.eq_false_iff.mpr hop
      have hclf : closedL.any (fun nd => nc == nd.city) = false :=
        Bool.eq_false_iff.mpr hcl
      refine Or.inr ⟨?_, not_mem_cityList_of_any_false hopf,
        not_mem_cityList_of_any_false hclf⟩
      rw [hres]
      simp [cityList]


theorem aStarLoop_nil (nbrs : City → List City) (d : City → City → α) (goal : City)
    (fuel : ℕ) (closedL : List (Node α)) :
    aStarLoop nbrs d goal fuel [] closedL = some (none, closedL) := by
  cases fuel <;> rfl

theorem aStarLoop_zero (nbrs : City → List City) (d : City → City → α) (goal : City)
    (hd : Node α) (tl closedL : List (Node α)) :
    aStarLoop nbrs d goal 0 (hd :: tl) closedL = none := rfl

theorem aStarLoop_succ (nbrs : City → List City) (d : City → City → α) (goal : City)
    (fuel : ℕ) (hd : Node α) (tl closedL : List (Node α)) :
    aStarLoop nbrs d goal (fuel + 1) (hd :: tl) closedL =
      if ((findBest (hd, 0) 0 (hd :: tl)).1).city = goal then
        some (some (findBest (hd, 0) 0 (hd :: tl)).1,
              closedL ++ [(findBest (hd, 0) 0 (hd :: tl)).1])
      else
        aStarLoop nbrs d goal fuel
          (expandNeighbours nbrs d goal (findBest (hd, 0) 0 (hd :: tl)).1
            (closedL ++ [(findBest (hd, 0) 0 (hd :: tl)).1])
            ((hd :: tl).eraseIdx (findBest (hd, 0) 0 (hd :: tl)).2))
          (closedL ++ [(findBest (hd, 0) 0 (hd :: tl)).1]) := rfl

/-- The ancestors-are-closed property is monotone in the closed list. -/
theorem parentsIn_mono (closedA closedB : List (Node α))
    (hsub : ∀ y ∈ closedA, y ∈ closedB) :
    ∀ x : Node α, parentsIn closedA x → parentsIn closedB x := by
  intro x
  induction x with
  | root c g h f => intro _; trivial
  | child c g h f p ih =>
    rintro ⟨h1, h2⟩
    exact ⟨hsub p h1, ih h2⟩

/-- The neighbour loop preserves the structural invariants: every node of the
open list has a valid parent chain, consistent `g` bookkeeping, and all its
ancestors in the closed list. -/
theorem expandNeighbours_main (nbrs : City → List City) (d : City → City → α)
    (start goal : City) (cur : Node α) (closedL : List (Node α))
    (hcur : chainOK nbrs start cur ∧ gOK d cur ∧ parentsIn closedL cur)
    (hcurm : cur ∈ closedL) (openL : List (Node α))
    (hopen : ∀ x ∈ openL, chainOK nbrs start x ∧ gOK d x ∧ parentsIn closedL x) :
    ∀ x ∈ expandNeighbours nbrs d goal cur closedL openL,
      chainOK nbrs start x ∧ gOK d x ∧ parentsIn closedL x := by
  unfold expandNeighbours
  refine foldl_preserve (processNeighbour d goal cur closedL)
    (fun acc => ∀ x ∈ acc, chainOK nbrs start x ∧ gOK d x ∧ parentsIn closedL x)
    (nbrs cur.city) openL ?_ hopen
  intro acc nc hnc hacc x hx
  rcases processNeighbour_mem d goal cur closedL acc nc x hx with
    hmem | ⟨y, hy, hyc, hxeq⟩ | hxeq
  · exact hacc x hmem
  · subst hxeq
    exact ⟨⟨hnc, hcur.1⟩, ⟨rfl, hcur.2.1⟩, hcurm, hcur.2.2⟩
  · subst hxeq
    exact ⟨⟨hnc, hcur.1⟩, ⟨rfl, hcur.2.1⟩, hcurm, hcur.2.2⟩

/-- The neighbour loop preserves distinctness of the cities of the open and
closed lists, the city bound, and reachability of every open city. -/
theorem expandNeighbours_state (n : ℕ) (nbrs : City → List City) (d : City → City → α)
    (start goal : City) (cur : Node α) (closedL : List (Node α))
    (wf : ∀ c x, x ∈ nbrs c → x < n)
    (hcur : cur.city < n ∧ Reach nbrs start cur.city) (openL : List (Node α))
    (hinv : (cityList openL ++ cityList closedL).Nodup ∧
      ∀ x ∈ openL, x.city < n ∧ Reach nbrs start x.city) :
    (cityList (expandNeighbours nbrs d goal cur closedL openL) ++ cityList closedL).Nodup ∧
    ∀ x ∈ expandNeighbours nbrs d goal cur closedL openL,
      x.city < n ∧ Reach nbrs start x.city := by
  unfold expandNeighbours
  refine foldl_preserve (processNeighbour d goal cur closedL)
    (fun acc => (cityList acc ++ cityList closedL).Nodup ∧
      ∀ x ∈ acc, x.city < n ∧ Reach nbrs start x.city)
    (nbrs cur.city) openL ?_ hinv
  intro acc nc hnc hP
  obtain ⟨hnd, hall⟩ := hP
  constructor
  · rcases processNeighbour_cities d goal cur closedL acc nc with hc | ⟨hc, hno, hnc2⟩
    · rw [hc]; exact hnd
    · rw [hc]
      have hre : (cityList acc ++ [nc]) ++ cityList closedL =
          cityList acc ++ nc :: cityList closedL := by simp
      rw [hre, List.nodup_middle]
      exact List.nodup_cons.mpr
        ⟨fun hmem => (List.mem_append.mp hmem).elim hno hnc2, hnd⟩
  · intro x hx
    rcases processNeighbour_mem d goal cur closedL acc nc x hx with
      hmem | ⟨y, hy, hyc, hxeq⟩ | hxeq
    · exact hall x hmem
    · subst hxeq
      exact ⟨wf cur.city nc hnc, Relation.ReflTransGen.tail hcur.2 hnc⟩
    · subst hxeq
      exact ⟨wf cur.city nc hnc, Relation.ReflTransGen.tail hcur.2 hnc⟩

theorem backPath_ne_nil (nd : Node α) : nd.backPath ≠ [] := by
  cases nd <;> simp [Node.backPath]

theorem head?_backPath (nd : Node α) : nd.backPath.head? = some nd.city := by
  cases nd <;> rfl

theorem head?_append_left {β : Type} (l l' : List β) (h : l ≠ []) :
    (l ++ l').head? = l.head? := by
  cases l with
  | nil => exact absurd rfl h
  | cons x xs => rfl

theorem edgesOK_concat (nbrs : City → List City) :
    ∀ (l : List City) (x c : City), l.getLast? = some x → edgesOK nbrs l →
      c ∈ nbrs x → edgesOK nbrs (l ++ [c]) := by
  intro l
  induction l with
  | nil => intro x c hlast _ _; simp at hlast
  | cons y ys ih =>
    intro x c hlast hok hc
    cases ys with
    | nil =>
      have hxy : x = y := by simpa using hlast.symm
      subst hxy
      exact ⟨hc, trivial⟩
    | cons z zs =>
      have hlast' : (z :: zs).getLast? = some x := by
        rw [← List.getLast?_cons_cons]; exact hlast
      obtain ⟨hedge, hok'⟩ := hok
      exact ⟨hedge, ih x c hlast' hok' hc⟩

/-- Walking the parent chain of a chain-valid node and reversing yields a list
that starts at `start`, ends at the node's city, and follows graph edges. -/
theorem backPath_reverse_spec (nbrs : City → List City) (start : City) (nd : Node α)
    (h : chainOK nbrs start nd) :
    nd.backPath.reverse.head? = some start ∧
    nd.backPath.reverse.getLast? = some nd.city ∧
    edgesOK nbrs nd.backPath.reverse := by
  induction nd with
  | root c g hh ff =>
    have hc : c = start := h
    subst hc
    exact ⟨rfl, rfl, trivial⟩
  | child c g hh ff p ih =>
    obtain ⟨hcn, hp⟩ := h
    obtain ⟨ih1, ih2, ih3⟩ := ih hp
    have hrev : (Node.child c g hh ff p).backPath.reverse = p.backPath.reverse ++ [c] := by
      simp [Node.backPath]
    refine ⟨?_, ?_, ?_⟩
    · rw [hrev, head?_append_left _ _ (by simp [backPath_ne_nil p])]
      exact ih1
    · rw [hrev, List.getLast?_concat]
      rfl
    · rw [hrev]
      exact edgesOK_concat nbrs p.backPath.reverse p.city c ih2 ih3 hcn

theorem pathCost_concat (d : City → City → α) :
    ∀ (l : List City) (x c : City), l.getLast? = some x →
      pathCost d (l ++ [c]) = pathCost d l + d x c := by
  intro l
  induction l with
  | nil => intro x c hlast; simp at hlast
  | cons y ys ih =>
    intro x c hlast
    cases ys with
    | nil =>
      have hxy : x = y := by simpa using hlast.symm
      subst hxy
      simp [pathCost]
    | cons z zs =>
      have hlast' : (z :: zs).getLast? = some x := by
        rw [← List.getLast?_cons_cons]; exact hlast
      have hstep : pathCost d ((y :: z :: zs) ++ [c]) =
          d y z + pathCost d ((z :: zs) ++ [c]) := rfl
      rw [hstep, ih x c hlast',
        show pathCost d (y :: z :: zs) = d y z + pathCost d (z :: zs) from rfl,
        add_assoc]

/-- The summed edge weight of the reversed parent-chain path equals the node's
`g`, for any node with consistent `g` bookkeeping. -/
theorem backPath_reverse_cost (d : City → City → α) (nd : Node α) (h : gOK d nd) :
    pathCost d nd.backPath.reverse = nd.g := by
  induction nd with
  | root c g hh ff =>
    have hg : g = 0 := h
    simp [Node.backPath, pathCost, hg]
  | child c g hh ff p ih =>
    obtain ⟨hg, hp⟩ := h
    have hrev : (Node.child c g hh ff p).backPath.reverse = p.backPath.reverse ++ [c] := by
      simp [Node.backPath]
    have hlast : p.backPath.reverse.getLast? = some p.city := by
      rw [List.getLast?_reverse]
      exact head?_backPath p
    rw [hrev, pathCost_concat d _ p.city c hlast, ih hp, hg]
    rfl


/-- The closed list only grows across the loop: the final closed list extends
the closed list of any intermediate state. -/
theorem aStarLoop_closed_mono (nbrs : City → List City) (d : City → City → α)
    (goal : City) :
    ∀ (fuel : ℕ) (openL closedL : List (Node α)) (r : Option (Node α))
      (closedF : List (Node α)),
      aStarLoop nbrs d goal fuel openL closedL = some (r, closedF) →
      ∃ rest, closedF = closedL ++ rest := by
  intro fuel
  induction fuel with
  | zero =>
    intro openL closedL r closedF h
    cases openL with
    | nil =>
      rw [aStarLoop_nil] at h
      have hc : closedL = closedF := congrArg Prod.snd (Option.some.inj h)
      exact ⟨[], by simp [hc]⟩
    | cons hd tl =>
      rw [aStarLoop_zero] at h
      exact absurd h (by simp)
  | succ fuel ih =>
    intro openL closedL r closedF h
    cases openL with
    | nil =>
      rw [aStarLoop_nil] at h
      have hc : closedL = closedF := congrArg Prod.snd (Option.some.inj h)
      exact ⟨[], by simp [hc]⟩
    | cons hd tl =>
      rw [aStarLoop_succ] at h
      by_cases hgoal : ((findBest (hd, 0) 0 (hd :: tl)).1).city = goal
      · rw [if_pos hgoal] at h
        have hc : closedL ++ [(findBest (hd, 0) 0 (hd :: tl)).1] = closedF :=
          congrArg Prod.snd (Option.some.inj h)
        exact ⟨[(findBest (hd, 0) 0 (hd :: tl)).1], hc.symm⟩
      · rw [if_neg hgoal] at h
        rcases ih _ _ _ _ h with ⟨rest, hrest⟩
        exact ⟨(findBest (hd, 0) 0 (hd :: tl)).1 :: rest, by
          rw [hrest, List.append_assoc]; rfl⟩

/-- Structural loop invariant: if every node of the state has a valid parent
chain, consistent `g` bookkeeping and closed ancestors, then so does the node
the loop returns, its ancestors are in the final closed list, and its city is
the goal. -/
theorem aStarLoop_main (nbrs : City → List City) (d : City → City → α)
    (start goal : City) :
    ∀ (fuel : ℕ) (openL closedL : List (Node α)) (r : Option (Node α))
      (closedF : List (Node α)),
      aStarLoop nbrs d goal fuel openL closedL = some (r, closedF) →
      (∀ x ∈ openL ++ closedL, chainOK nbrs start x ∧ gOK d x ∧ parentsIn closedL x) →
      ∀ nd, r = some nd →
        chainOK nbrs start nd ∧ gOK d nd ∧ parentsIn closedF nd ∧ nd.city = goal := by
  intro fuel
  induction fuel with
  | zero =>
    intro openL closedL r closedF h hinv nd hnd
    cases openL with
    | nil =>
      rw [aStarLoop_nil] at h
      have hr : (none : Option (Node α)) = r := congrArg Prod.fst (Option.some.inj h)
      rw [← hr] at hnd
      exact absurd hnd (by simp)
    | cons hd tl =>
      rw [aStarLoop_zero] at h
      exact absurd h (by simp)
  | succ fuel ih =>
    intro openL closedL r closedF h hinv nd hnd
    cases openL with
    | nil =>
      rw [aStarLoop_nil] at h
      have hr : (none : Option (Node α)) = r := congrArg Prod.fst (Option.some.inj h)
      rw [← hr] at hnd
      exact absurd hnd (by simp)
    | cons hd tl =>
      obtain ⟨hlt, hget, hmin, hfirst⟩ :=
        findBest_spec hd tl (findBest (hd, 0) 0 (hd :: tl)).1
          (findBest (hd, 0) 0 (hd :: tl)).2 rfl
      have hcurm : (findBest (hd, 0) 0 (hd :: tl)).1 ∈ hd :: tl := by
        rw [← hget]; exact List.get_mem _ _ _
      have hcur : chainOK nbrs start (findBest (hd, 0) 0 (hd :: tl)).1 ∧
          gOK d (findBest (hd, 0) 0 (hd :: tl)).1 ∧
          parentsIn closedL (findBest (hd, 0) 0 (hd :: tl)).1 :=
        hinv _ (List.mem_append.mpr (Or.inl hcurm))
      have hsubm : ∀ y ∈ closedL, y ∈ closedL ++ [(findBest (hd, 0) 0 (hd :: tl)).1] :=
        fun y hy => List.mem_append.mpr (Or.inl hy)
      rw [aStarLoop_succ] at h
      by_cases hgoal : ((findBest (hd, 0) 0 (hd :: tl)).1).city = goal
      · rw [if_pos hgoal] at h
        have h' := Option.some.inj h
        have hr : some (findBest (hd, 0) 0 (hd :: tl)).1 = r := congrArg Prod.fst h'
        have hc : closedL ++ [(findBest (hd, 0) 0 (hd :: tl)).1] = closedF :=
          congrArg Prod.snd h'
        rw [← hr] at hnd
        have hndeq : nd = (findBest (hd, 0) 0 (hd :: tl)).1 := (Option.some.inj hnd).symm
        subst hndeq
        refine ⟨hcur.1, hcur.2.1, ?_, hgoal⟩
        rw [← hc]
        exact parentsIn_mono closedL _ hsubm _ hcur.2.2
      · rw [if_neg hgoal] at h
        refine ih _ _ _ _ h ?_ nd hnd
        intro x hx
        rcases List.mem_append.mp hx with hxo | hxc
        · -- x is in the expanded open list
          refine expandNeighbours_main nbrs d start goal _ _
            ⟨hcur.1, hcur.2.1, parentsIn_mono closedL _ hsubm _ hcur.2.2⟩
            (List.mem_append.mpr (Or.inr (List.mem_singleton.mpr rfl))) _ ?_ x hxo
          intro y hy
          have hyo : y ∈ hd :: tl :=
            (List.eraseIdx_sublist (hd :: tl) (findBest (hd, 0) 0 (hd :: tl)).2).subset hy
          have hyi := hinv y (List.mem_append.mpr (Or.inl hyo))
          exact ⟨hyi.1, hyi.2.1, parentsIn_mono closedL _ hsubm _ hyi.2.2⟩
        · -- x is in the new closed list
          rcases List.mem_append.mp hxc with hxc' | hxc'
          · have hxi := hinv x (List.mem_append.mpr (Or.inr hxc'))
            exact ⟨hxi.1, hxi.2.1, parentsIn_mono closedL _ hsubm _ hxi.2.2⟩
          · have hxeq : x = (findBest (hd, 0) 0 (hd :: tl)).1 := List.mem_singleton.mp hxc'
            subst hxeq
            exact ⟨hcur.1, hcur.2.1, parentsIn_mono closedL _ hsubm _ hcur.2.2⟩

/-- A list of distinct naturals all below `n` has length at most `n`. -/
theorem nodup_lt_length_le (l : List ℕ) (n : ℕ) (hnd : l.Nodup)
    (hlt : ∀ x ∈ l, x < n) : l.length ≤ n := by
  have hcard : l.toFinset.card = l.length := List.toFinset_card_of_nodup hnd
  have hsub : l.toFinset ⊆ Finset.range n := by
    intro x hx
    exact Finset.mem_range.mpr (hlt x (List.mem_toFinset.mp hx))
  calc l.length = l.toFinset.card := hcard.symm
    _ ≤ (Finset.range n).card := Finset.card_le_card hsub
    _ = n := Finset.card_range n


/-- Termination and state invariant of the loop: on a graph whose neighbour
lists stay below `n`, starting from a state whose cities are distinct, below
`n` and reachable from `start`, and with enough fuel, the loop always returns
(no fuel exhaustion); the final closed list has pairwise distinct, reachable
cities (each closed city was expanded exactly once), and a returned node's
city is the goal. -/
theorem aStarLoop_state (n : ℕ) (nbrs : City → List City) (d : City → City → α)
    (start goal : City) (wf : ∀ c x, x ∈ nbrs c → x < n) :
    ∀ (fuel : ℕ) (openL closedL : List (Node α)),
      (cityList openL ++ cityList closedL).Nodup →
      (∀ x ∈ openL ++ closedL, x.city < n ∧ Reach nbrs start x.city) →
      n ≤ fuel + closedL.length →
      ∃ r closedF, aStarLoop nbrs d goal fuel openL closedL = some (r, closedF) ∧
        (cityList closedF).Nodup ∧
        (∀ x ∈ closedF, x.city < n ∧ Reach nbrs start x.city) ∧
        ∀ nd, r = some nd → nd.city = goal ∧ Reach nbrs start nd.city := by
  intro fuel
  induction fuel with
  | zero =>
    intro openL closedL hnd hmem hfuel
    cases openL with
    | nil =>
      refine ⟨none, closedL, aStarLoop_nil nbrs d goal 0 closedL, ?_, ?_, by simp⟩
      · simpa [cityList] using hnd
      · intro x hx
        exact hmem x (by simpa using hx)
    | cons hd tl =>
      exfalso
      have hltall : ∀ y ∈ cityList (hd :: tl) ++ cityList closedL, y < n := by
        intro y hy
        rcases List.mem_append.mp hy with hy' | hy'
        · rcases List.mem_map.mp hy' with ⟨x, hx, hxy⟩
          exact hxy ▸ (hmem x (List.mem_append.mpr (Or.inl hx))).1
        · rcases List.mem_map.mp hy' with ⟨x, hx, hxy⟩
          exact hxy ▸ (hmem x (List.mem_append.mpr (Or.inr hx))).1
      have hlen := nodup_lt_length_le _ n hnd hltall
      simp only [List.length_append, cityList, List.length_map, List.length_cons] at hlen
      omega
  | succ fuel ih =>
    intro openL closedL hnd hmem hfuel
    cases openL with
    | nil =>
      refine ⟨none, closedL, aStarLoop_nil nbrs d goal _ closedL, ?_, ?_, by simp⟩
      · simpa [cityList] using hnd
      · intro x hx
        exact hmem x (by simpa using hx)
    | cons hd tl =>
      obtain ⟨hlt, hget, hmin, hfirst⟩ :=
        findBest_spec hd tl (findBest (hd, 0) 0 (hd :: tl)).1
          (findBest (hd, 0) 0 (hd :: tl)).2 rfl
      have hcurm : (findBest (hd, 0) 0 (hd :: tl)).1 ∈ hd :: tl := by
        rw [← hget]; exact List.get_mem _ _ _
      have hcurp : ((findBest (hd, 0) 0 (hd :: tl)).1).city < n ∧
          Reach nbrs start ((findBest (hd, 0) 0 (hd :: tl)).1).city :=
        hmem _ (List.mem_append.mpr (Or.inl hcurm))
      have hperm : List.Perm
          ((findBest (hd, 0) 0 (hd :: tl)).1 ::
            (hd :: tl).eraseIdx (findBest (hd, 0) 0 (hd :: tl)).2) (hd :: tl) := by
        conv_lhs => rw [← hget]
        exact get_cons_eraseIdx_perm (hd :: tl) _ hlt
      have hpermc : List.Perm
          (((findBest (hd, 0) 0 (hd :: tl)).1).city ::
            cityList ((hd :: tl).eraseIdx (findBest (hd, 0) 0 (hd :: tl)).2))
          (cityList (hd :: tl)) := by
        have := hperm.map Node.city
        simpa [cityList] using this
      have hperm2 : List.Perm
          (cityList ((hd :: tl).eraseIdx (findBest (hd, 0) 0 (hd :: tl)).2) ++
            cityList (closedL ++ [(findBest (hd, 0) 0 (hd :: tl)).1]))
          (cityList (hd :: tl) ++ cityList closedL) := by
        have e1 : cityList (closedL ++ [(findBest (hd, 0) 0 (hd :: tl)).1]) =
            cityList closedL ++ [((findBest (hd, 0) 0 (hd :: tl)).1).city] := by
          simp [cityList]
        rw [e1]
        refine List.Perm.trans
          (List.Perm.append_left _ (List.perm_append_singleton _ _)) ?_
        refine List.Perm.trans List.perm_middle ?_
        exact hpermc.append_right _
      have hnd' : (cityList ((hd :: tl).eraseIdx (findBest (hd, 0) 0 (hd :: tl)).2) ++
          cityList (closedL ++ [(findBest (hd, 0) 0 (hd :: tl)).1])).Nodup :=
        (hperm2.nodup_iff).mpr hnd
      have hmemE : ∀ x ∈ (hd :: tl).eraseIdx (findBest (hd, 0) 0 (hd :: tl)).2,
          x.city < n ∧ Reach nbrs start x.city := by
        intro x hx
        have : x ∈ hd :: tl := (List.eraseIdx_sublist (hd :: tl) _).subset hx
        exact hmem x (List.mem_append.mpr (Or.inl this))
      have hmemC : ∀ x ∈ closedL ++ [(findBest (hd, 0) 0 (hd :: tl)).1],
          x.city < n ∧ Reach nbrs start x.city := by
        intro x hx
        rcases List.mem_append.mp hx with hx' | hx'
        · exact hmem x (List.mem_append.mpr (Or.inr hx'))
        · have hxeq : x = (findBest (hd, 0) 0 (hd :: tl)).1 := List.mem_singleton.mp hx'
          subst hxeq
          exact hcurp
      have hndC : (cityList (closedL ++ [(findBest (hd, 0) 0 (hd :: tl)).1])).Nodup :=
        List.Nodup.of_append_right hnd'
      have hexp := expandNeighbours_state n nbrs d start goal
        (findBest (hd, 0) 0 (hd :: tl)).1
        (closedL ++ [(findBest (hd, 0) 0 (hd :: tl)).1]) wf hcurp
        ((hd :: tl).eraseIdx (findBest (hd, 0) 0 (hd :: tl)).2) ⟨hnd', hmemE⟩
      by_cases hgoal : ((findBest (hd, 0) 0 (hd :: tl)).1).city = goal
      · refine ⟨some (findBest (hd, 0) 0 (hd :: tl)).1,
          closedL ++ [(findBest (hd, 0) 0 (hd :: tl)).1],
          by rw [aStarLoop_succ, if_pos hgoal], hndC, hmemC, ?_⟩
        intro nd hnd2
        have : nd = (findBest (hd, 0) 0 (hd :: tl)).1 := (Option.some.inj hnd2).symm
        subst this
        exact ⟨hgoal, hcurp.2⟩
      · have hfuel' : n ≤ fuel + (closedL ++ [(findBest (hd, 0) 0 (hd :: tl)).1]).length := by
          simp only [List.length_append, List.length_singleton]
          omega
        have hmemAll : ∀ x ∈ (expandNeighbours nbrs d goal (findBest (hd, 0) 0 (hd :: tl)).1
            (closedL ++ [(findBest (hd, 0) 0 (hd :: tl)).1])
            ((hd :: tl).eraseIdx (findBest (hd, 0) 0 (hd :: tl)).2)) ++
            (closedL ++ [(findBest (hd, 0) 0 (hd :: tl)).1]),
            x.city < n ∧ Reach nbrs start x.city := by
          intro x hx
          rcases List.mem_append.mp hx with hx' | hx'
          · exact hexp.2 x hx'
          · exact hmemC x hx'
        obtain ⟨r, closedF, heq, h1, h2, h3⟩ := ih _ _ hexp.1 hmemAll hfuel'
        exact ⟨r, closedF, by rw [aStarLoop_succ, if_neg hgoal]; exact heq, h1, h2, h3⟩


theorem any_city_false_of_not_mem {l : List (Node α)} {nc : City}
    (h : nc ∉ cityList l) : l.any (fun x => nc == x.city) = false := by
  rw [List.any_eq_false]
  intro x hx
  simp only [beq_iff_eq]
  intro heq
  exact h (List.mem_map.mpr ⟨x, hx, heq.symm⟩)

theorem map_upd_id (nc : City) (g' : α) (cur : Node α) :
    ∀ (l : List (Node α)), nc ∉ cityList l →
      l.map (fun x => if nc = x.city ∧ g' < x.g then Node.child nc g' x.h x.f cur else x)
        = l := by
  intro l
  induction l with
  | nil => intro _; rfl
  | cons y ys ih =>
    intro h
    have hmc : cityList (y :: ys) = y.city :: cityList ys := rfl
    have hy : nc ≠ y.city := fun heq => h (hmc ▸ List.mem_cons.mpr (Or.inl heq))
    have hys : nc ∉ cityList ys := fun hm => h (hmc ▸ List.mem_cons.mpr (Or.inr hm))
    rw [List.map_cons, if_neg (fun hc => hy hc.1), ih hys]

/-- In the single-entry open state of the first iteration, the scan returns
the start node at index `0`. -/
theorem findBest_self (b : Node α) (bi i : ℕ) : findBest (b, bi) i [b] = (b, bi) := by
  simp [findBest, lt_irrefl]

end Engine

/-! ## Concrete graphs over `ℤ`

All these graphs are drawn with integer coordinates taken from Pythagorean
triples, so the Euclidean distances the program computes on them are exact
integers (and exactly representable in the source's floating point). -/

/-- Counterexample graph for the optimality claim.  Cities (with coordinates):
`0 = S (0,0)`, `1 = a (64,120)`, `2 = b (90,120)`, `3 = c (231,0)`,
`4 = u (119,120)`, `5 = G (154,0)`.  Undirected edges:
`S-a`, `S-b`, `S-c`, `a-u`, `b-u`, `u-G`, `c-G`. -/
def cexNbrs : City → List City
  | 0 => [1, 2, 3]
  | 1 => [0, 4]
  | 2 => [0, 4]
  | 3 => [0, 5]
  | 4 => [1, 2, 5]
  | 5 => [3, 4]
  | _ => []

/-- Euclidean distances between the `cexCoords` points, all integers:
for example `d(S,a) = √(64² + 120²) = 136`.  Pairs never used by the run and
never inspected by the claims default to `0`. -/
def cexD (u v : City) : ℤ :=
  match Nat.min u v, Nat.max u v with
  | 0, 1 => 136
  | 0, 2 => 150
  | 0, 3 => 231
  | 0, 5 => 154
  | 1, 4 => 55
  | 1, 5 => 150
  | 2, 4 => 29
  | 2, 5 => 136
  | 3, 5 => 77
  | 4, 5 => 125
  | _, _ => 0

def cexCoords : City → ℤ × ℤ
  | 0 => (0, 0)
  | 1 => (64, 120)
  | 2 => (90, 120)
  | 3 => (231, 0)
  | 4 => (119, 120)
  | 5 => (154, 0)
  | _ => (0, 0)

/-- Two-city graph with one edge `0-1` of weight `5`
(coordinates `(0,0)` and `(3,4)`). -/
def twoNbrs : City → List City
  | 0 => [1]
  | 1 => [0]
  | _ => []

def twoD (u v : City) : ℤ :=
  match Nat.min u v, Nat.max u v with
  | 0, 1 => 5
  | _, _ => 0

def twoCoords : City → ℤ × ℤ
  | 0 => (0, 0)
  | 1 => (3, 4)
  | _ => (0, 0)

/-- Two isolated cities: no edges at all. -/
def isoNbrs : City → List City := fun _ => []

def dZero : City → City → ℤ := fun _ _ => 0

/-- Two search nodes with distinct `f` values for the selection-scan witness. -/
def cexA : Node ℤ := Node.root 0 0 0 9

def cexB : Node ℤ := Node.root 1 0 0 3

theorem twoNbrs_wf : ∀ c x, x ∈ twoNbrs c → x < 2 := by
  intro c x hx
  rcases c with _ | _ | c
  · simp [twoNbrs] at hx
    subst hx
    decide
  · simp [twoNbrs] at hx
    subst hx
    decide
  · simp [twoNbrs] at hx

/-! ## Claims -/

section Claims

variable {α : Type} [LinearOrderedCommRing α]

/-- Claim C1: the optimality claim fails on the code.  On the six-city graph
`cexNbrs`, placed in the plane by `cexCoords` with every edge weight and every
heuristic value equal to the (exactly integer) Euclidean distance between the
endpoints — so the claim's premise "each edge weight ≥ straight-line distance"
holds with equality — `a_star 0 5` returns the path `[0, 3, 5]` of total weight
`308`, although `[0, 2, 4, 5]` is a valid start-goal path of total weight
`304 < 308`.  The cause: when city `4`'s open entry is improved via city `2`,
its `f` is not recomputed, so the stale `f = 316` hides the cheaper route. -/
theorem a_star_not_optimal_cex :
    a_star 6 cexNbrs cexD 0 5 = some [0, 3, 5] ∧
    pathCost cexD [0, 3, 5] = 308 ∧
    [0, 2, 4, 5].head? = some 0 ∧
    [0, 2, 4, 5].getLast? = some 5 ∧
    edgesOK cexNbrs [0, 2, 4, 5] ∧
    pathCost cexD [0, 2, 4, 5] = 304 ∧
    (304 : ℤ) < 308 ∧
    EdgesEuclid cexCoords cexNbrs cexD 6 ∧
    HeurEuclid cexCoords cexD 5 6 ∧
    (∀ u, u < 6 → ∀ v ∈ cexNbrs u, cexD u v = cexD v u) := by
  refine ⟨rfl, by decide, rfl, rfl, by decide, by decide, by decide, ?_, ?_, by decide⟩
  · unfold EdgesEuclid
    decide
  · unfold HeurEuclid
    decide

/-- Claim C2: every non-`none` result of `a_star` is a list of cities whose
first entry is `start`, whose last entry is `goal`, and in which every pair of
consecutive entries `(u, v)` has `v` in `u`'s neighbour list. -/
theorem a_star_path_valid (n : ℕ) (nbrs : City → List City) (d : City → City → α)
    (start goal : City) (p : List City) (h : a_star n nbrs d start goal = some p) :
    p.head? = some start ∧ p.getLast? = some goal ∧ edgesOK nbrs p := by
  unfold a_star at h
  rcases heq : aStarLoop nbrs d goal (n + 1) [initNode start] [] with _ | ⟨r, closedF⟩
  · rw [heq] at h
    simp at h
  · rw [heq] at h
    rcases r with _ | nd
    · simp at h
    · have hp : p = nd.backPath.reverse := by simpa using h.symm
      have hinv : ∀ x ∈ ([initNode start] : List (Node α)) ++ [],
          chainOK nbrs start x ∧ gOK d x ∧ parentsIn ([] : List (Node α)) x := by
        intro x hx
        have hxi : x = initNode start := by simpa using hx
        subst hxi
        exact ⟨rfl, rfl, trivial⟩
      obtain ⟨hchain, hg, hpar, hcity⟩ :=
        aStarLoop_main nbrs d start goal (n + 1) [initNode start] [] (some nd) closedF
          heq hinv nd rfl
      obtain ⟨h1, h2, h3⟩ := backPath_reverse_spec nbrs start nd hchain
      rw [hp]
      exact ⟨h1, by rw [h2, hcity], h3⟩

theorem a_star_path_valid_witness :
    a_star 2 twoNbrs twoD 0 1 = some [0, 1] ∧
    ([0, 1].head? = some 0 ∧ [0, 1].getLast? = some 1 ∧ edgesOK twoNbrs [0, 1]) :=
  ⟨rfl, a_star_path_valid 2 twoNbrs twoD 0 1 [0, 1] rfl⟩

/-- Claim C3: on a well-formed graph, if the goal is not reachable from the
start by following neighbour links then `a_star` returns `none` (a value, not
a fault — the embedding is a total function), and `a_star` returns `none`
exactly when the loop terminated because the open list became empty
(the `some (none, _)` outcome) rather than by goal selection. -/
theorem a_star_none_cases (n : ℕ) (nbrs : City → List City) (d : City → City → α)
    (start goal : City) (wf : ∀ c x, x ∈ nbrs c → x < n) (hstart : start < n) :
    (¬ Reach nbrs start goal → a_star n nbrs d start goal = none) ∧
    (a_star n nbrs d start goal = none ↔
      ∃ closedF, aStarLoop nbrs d goal (n + 1) [initNode start] [] =
        some (none, closedF)) := by
  have hmem0 : ∀ x ∈ ([initNode start] : List (Node α)) ++ [],
      x.city < n ∧ Reach nbrs start x.city := by
    intro x hx
    have hxi : x = initNode start := by simpa using hx
    subst hxi
    exact ⟨hstart, Relation.ReflTransGen.refl⟩
  obtain ⟨r, closedF, heq, hnodup, hclosed, hr⟩ :=
    aStarLoop_state n nbrs d start goal wf (n + 1) [initNode start] []
      (by simp [cityList, initNode]) hmem0 (by omega)
  constructor
  · intro hnr
    rcases r with _ | nd
    · unfold a_star
      rw [heq]
    · exfalso
      obtain ⟨hcity, hreach⟩ := hr nd rfl
      exact hnr (hcity ▸ hreach)
  · constructor
    · intro hnone
      rcases r with _ | nd
      · exact ⟨closedF, heq⟩
      · exfalso
        unfold a_star at hnone
        rw [heq] at hnone
        simp at hnone
    · intro hex
      obtain ⟨closedF', heq'⟩ := hex
      unfold a_star
      rw [heq']

theorem a_star_none_cases_witness :
    (¬ Reach isoNbrs 0 1) ∧ a_star 2 isoNbrs dZero 0 1 = none := by
  have hnr : ¬ Reach isoNbrs 0 1 := by
    intro h
    rcases Relation.ReflTransGen.cases_head h with heqc | ⟨c, hc, _⟩
    · exact absurd heqc (by decide)
    · simp [isoNbrs] at hc
  exact ⟨hnr, (a_star_none_cases 2 isoNbrs dZero 0 1
    (fun c x hx => absurd hx (by simp [isoNbrs])) (by decide)).1 hnr⟩

/-- Claim C4: for every graph, if `start = goal` then `a_star` returns the
single-element path `[start]`, whose total cost is `0`: the start node is
selected in the first iteration and immediately recognised as the goal. -/
theorem a_star_trivial_path (n : ℕ) (nbrs : City → List City) (d : City → City → α)
    (s : City) : a_star n nbrs d s s = some [s] ∧ pathCost d [s] = 0 := by
  constructor
  · have h1 : aStarLoop nbrs d s (n + 1) [initNode s] [] =
        some (some (initNode s), [initNode s]) := by
      rw [aStarLoop_succ, findBest_self]
      rw [if_pos (show ((initNode s : Node α), 0).1.city = s from rfl)]
      rfl
    unfold a_star
    rw [h1]
    rfl
  · rfl

/-- Claim C5, counterexample: the claim says the start search node is
initialised with `h = distance(start, goal)` and `f = h`.  In the code
`Node.__init__` zeroes all three fields and `a_star` never assigns the start
node's `h` or `f`, so on the two-city graph (cities at `(0,0)` and `(3,4)`,
genuine Euclidean distance `5`) the start node has `h = 0 ≠ 5`. -/
theorem start_node_heuristic_cex :
    (initNode 0 : Node ℤ).g = 0 ∧ (initNode 0 : Node ℤ).h = 0 ∧
    (initNode 0 : Node ℤ).f = 0 ∧ twoD 0 1 = 5 ∧
    HeurEuclid twoCoords twoD 1 2 ∧
    (initNode 0 : Node ℤ).h ≠ twoD 0 1 := by
  refine ⟨rfl, rfl, rfl, rfl, ?_, by decide⟩
  unfold HeurEuclid
  decide

/-- Claim C5, amended: at the start of `a_star(start, goal)` the start
SearchNode is initialised with `g = 0`, `h = 0` and `f = 0` (the heuristic is
not computed for the start node), it has no parent, and it is placed alone in
the open list while the closed list starts empty. -/
theorem start_node_init_amended (start : City) :
    (initNode start : Node α).g = 0 ∧ (initNode start : Node α).h = 0 ∧
    (initNode start : Node α).f = 0 ∧ (initNode start : Node α).parent = none ∧
    ∀ (n : ℕ) (nbrs : City → List City) (d : City → City → α) (goal : City),
      a_star n nbrs d start goal =
        match aStarLoop nbrs d goal (n + 1) [initNode start] [] with
        | some (some nd, _) => some nd.backPath.reverse
        | _ => none :=
  ⟨rfl, rfl, rfl, rfl, fun _ _ _ _ => rfl⟩

/-- Claim C6: when the processed neighbour `nc` already has an entry in the
open list (and is not closed), the entry's `g` becomes
`g' = cur.g + d cur.city nc` and its parent becomes `cur` exactly when `g'`
improves on its old `g`; its `h` and `f` fields are never recomputed, no
duplicate entry is inserted (the open list keeps its length), and all other
entries are untouched. -/
theorem open_update_no_duplicate (d : City → City → α) (goal : City) (cur : Node α)
    (closedL l1 l2 : List (Node α)) (nd : Node α) (nc : City)
    (hnd : nd.city = nc) (hl1 : nc ∉ cityList l1) (hl2 : nc ∉ cityList l2)
    (hcl : nc ∉ cityList closedL) :
    processNeighbour d goal cur closedL (l1 ++ nd :: l2) nc =
      l1 ++ (if cur.g + d cur.city nc < nd.g then
        Node.child nc (cur.g + d cur.city nc) nd.h nd.f cur else nd) :: l2 ∧
    (processNeighbour d goal cur closedL (l1 ++ nd :: l2) nc).length =
      (l1 ++ nd :: l2).length ∧
    (if cur.g + d cur.city nc < nd.g then
        Node.child nc (cur.g + d cur.city nc) nd.h nd.f cur else nd).h = nd.h ∧
    (if cur.g + d cur.city nc < nd.g then
        Node.child nc (cur.g + d cur.city nc) nd.h nd.f cur else nd).f = nd.f := by
  have hopany : (l1 ++ nd :: l2).any (fun x => nc == x.city) = true :=
    List.any_eq_true.mpr ⟨nd, by simp, by simp [hnd]⟩
  have hmain : processNeighbour d goal cur closedL (l1 ++ nd :: l2) nc =
      l1 ++ (if cur.g + d cur.city nc < nd.g then
        Node.child nc (cur.g + d cur.city nc) nd.h nd.f cur else nd) :: l2 := by
    simp only [processNeighbour]
    rw [if_neg (by simp [any_city_false_of_not_mem hcl]), if_pos hopany,
      List.map_append, List.map_cons, map_upd_id nc _ cur l1 hl1,
      map_upd_id nc _ cur l2 hl2]
    by_cases hlt : cur.g + d cur.city nc < nd.g
    · rw [if_pos ⟨hnd.symm, hlt⟩, if_pos hlt]
    · rw [if_neg (fun hc => hlt hc.2), if_neg hlt]
  refine ⟨hmain, by rw [hmain]; simp, ?_, ?_⟩
  · by_cases hlt : cur.g + d cur.city nc < nd.g
    · rw [if_pos hlt]
      rfl
    · rw [if_neg hlt]
  · by_cases hlt : cur.g + d cur.city nc < nd.g
    · rw [if_pos hlt]
      rfl
    · rw [if_neg hlt]

theorem open_update_no_duplicate_witness :
    processNeighbour twoD 1 (Node.root 0 (0 : ℤ) 0 0) []
      ([] ++ Node.root 1 10 7 9 :: []) 1 =
      [Node.child 1 5 7 9 (Node.root 0 (0 : ℤ) 0 0)] :=
  (open_update_no_duplicate twoD 1 (Node.root 0 (0 : ℤ) 0 0) [] [] []
    (Node.root 1 10 7 9) 1 rfl (by simp [cityList]) (by simp [cityList])
    (by simp [cityList])).1.trans (by decide)

/-- Claim C7: a neighbour whose city already has a node in the closed list is
skipped — processing it leaves the open list completely unchanged, so it is
never re-inserted or re-expanded — and the closed list only ever grows: the
final closed list of any loop run extends the closed list of the state it
started from. -/
theorem closed_permanent :
    (∀ (d : City → City → α) (goal : City) (cur : Node α)
      (closedL openL : List (Node α)) (nc : City),
      nc ∈ cityList closedL → processNeighbour d goal cur closedL openL nc = openL) ∧
    (∀ (nbrs : City → List City) (d : City → City → α) (goal : City) (fuel : ℕ)
      (openL closedL : List (Node α)) (r : Option (Node α)) (closedF : List (Node α)),
      aStarLoop nbrs d goal fuel openL closedL = some (r, closedF) →
      ∃ rest, closedF = closedL ++ rest) :=
  ⟨fun d goal cur closedL openL nc h =>
      processNeighbour_closed_skip d goal cur closedL openL nc h,
    fun nbrs d goal fuel openL closedL r closedF h =>
      aStarLoop_closed_mono nbrs d goal fuel openL closedL r closedF h⟩

theorem closed_permanent_witness :
    (processNeighbour twoD 1 (Node.root 0 (0 : ℤ) 0 0) [Node.root 1 1 1 1]
      [Node.root 0 5 5 5] 1 = [Node.root 0 5 5 5]) ∧
    (∃ rest, ([Node.root 0 (0 : ℤ) 0 0,
      Node.child 1 5 0 5 (Node.root 0 0 0 0)] : List (Node ℤ)) = [] ++ rest) :=
  ⟨closed_permanent.1 twoD 1 (Node.root 0 (0 : ℤ) 0 0) [Node.root 1 1 1 1]
      [Node.root 0 5 5 5] 1 (by decide),
    closed_permanent.2 twoNbrs twoD 1 3 [initNode 0] []
      (some (Node.child 1 5 0 5 (Node.root 0 0 0 0)))
      [Node.root 0 0 0 0, Node.child 1 5 0 5 (Node.root 0 0 0 0)] (by decide)⟩

/-- Claim C8: the node selected in each loop iteration has minimal `f` over
the whole open list, among equal minima the first one in left-to-right scan
order wins (every earlier entry has strictly greater `f`), and this selected
node is exactly the one the iteration appends to the closed list, whatever the
rest of the run does. -/
theorem select_min_f_first (hd : Node α) (tl : List (Node α)) (cur : Node α) (idx : ℕ)
    (hsel : findBest (hd, 0) 0 (hd :: tl) = (cur, idx)) :
    ∃ hlt : idx < (hd :: tl).length,
      (hd :: tl).get ⟨idx, hlt⟩ = cur ∧
      (∀ x ∈ hd :: tl, cur.f ≤ x.f) ∧
      (∀ k, ∀ hk : k < idx, cur.f < ((hd :: tl).get ⟨k, Nat.lt_trans hk hlt⟩).f) ∧
      ∀ (nbrs : City → List City) (d' : City → City → α) (goal : City) (fuel : ℕ)
        (closedL : List (Node α)) (r : Option (Node α)) (closedF : List (Node α)),
        aStarLoop nbrs d' goal (fuel + 1) (hd :: tl) closedL = some (r, closedF) →
        ∃ rest, closedF = closedL ++ cur :: rest := by
  obtain ⟨hlt, h1, h2, h3⟩ := findBest_spec hd tl cur idx hsel
  refine ⟨hlt, h1, h2, h3, ?_⟩
  intro nbrs d' goal fuel closedL r closedF h
  have hc1 : (findBest (hd, 0) 0 (hd :: tl)).1 = cur := by rw [hsel]
  rw [aStarLoop_succ] at h
  by_cases hgoal : ((findBest (hd, 0) 0 (hd :: tl)).1).city = goal
  · rw [if_pos hgoal] at h
    have hcf : closedL ++ [(findBest (hd, 0) 0 (hd :: tl)).1] = closedF :=
      congrArg Prod.snd (Option.some.inj h)
    refine ⟨[], ?_⟩
    rw [← hcf, hc1]
  · rw [if_neg hgoal] at h
    obtain ⟨rest, hrest⟩ := aStarLoop_closed_mono _ _ _ _ _ _ _ _ h
    refine ⟨rest, ?_⟩
    rw [hrest, hc1, List.append_assoc]
    rfl

theorem select_min_f_first_witness :
    ∃ hlt : 1 < ([cexA, cexB] : List (Node ℤ)).length,
      ([cexA, cexB] : List (Node ℤ)).get ⟨1, hlt⟩ = cexB ∧
      (∀ x ∈ ([cexA, cexB] : List (Node ℤ)), cexB.f ≤ x.f) ∧
      (∀ k, ∀ hk : k < 1,
        cexB.f < (([cexA, cexB] : List (Node ℤ)).get ⟨k, Nat.lt_trans hk hlt⟩).f) ∧
      ∀ (nbrs : City → List City) (d' : City → City → ℤ) (goal : City) (fuel : ℕ)
        (closedL : List (Node ℤ)) (r : Option (Node ℤ)) (closedF : List (Node ℤ)),
        aStarLoop nbrs d' goal (fuel + 1) ([cexA, cexB] : List (Node ℤ)) closedL =
          some (r, closedF) →
        ∃ rest, closedF = closedL ++ cexB :: rest :=
  select_min_f_first cexA [cexB] cexB 1 rfl

/-- Claim C9: on a well-formed graph the search terminates within the fuel
`a_star` supplies: the loop run from the initial state returns a value, the
cities of the final closed list are pairwise distinct (each city is expanded
at most once, so the number of iterations equals the number of distinct closed
cities), every closed city is reachable from the start, and there are at most
`n` iterations. -/
theorem a_star_terminates (n : ℕ) (nbrs : City → List City) (d : City → City → α)
    (start goal : City) (wf : ∀ c x, x ∈ nbrs c → x < n) (hstart : start < n) :
    ∃ r closedF, aStarLoop nbrs d goal (n + 1) [initNode start] [] = some (r, closedF) ∧
      (cityList closedF).Nodup ∧
      (∀ c ∈ cityList closedF, Reach nbrs start c) ∧
      closedF.length ≤ n := by
  have hmem0 : ∀ x ∈ ([initNode start] : List (Node α)) ++ [],
      x.city < n ∧ Reach nbrs start x.city := by
    intro x hx
    have hxi : x = initNode start := by simpa using hx
    subst hxi
    exact ⟨hstart, Relation.ReflTransGen.refl⟩
  obtain ⟨r, closedF, heq, h1, h2, h3⟩ :=
    aStarLoop_state n nbrs d start goal wf (n + 1) [initNode start] []
      (by simp [cityList, initNode]) hmem0 (by omega)
  refine ⟨r, closedF, heq, h1, ?_, ?_⟩
  · intro c hc
    rcases List.mem_map.mp hc with ⟨x, hx, hxc⟩
    exact hxc ▸ (h2 x hx).2
  · have hlen : (cityList closedF).length ≤ n := by
      refine nodup_lt_length_le _ n h1 ?_
      intro y hy
      rcases List.mem_map.mp hy with ⟨x, hx, hxy⟩
      exact hxy ▸ (h2 x hx).1
    simpa [cityList] using hlen

theorem a_star_terminates_witness :
    ∃ r closedF, aStarLoop twoNbrs twoD 1 (2 + 1) [initNode 0]
        ([] : List (Node ℤ)) = some (r, closedF) ∧
      (cityList closedF).Nodup ∧
      (∀ c ∈ cityList closedF, Reach twoNbrs 0 c) ∧
      closedF.length ≤ 2 :=
  a_star_terminates 2 twoNbrs twoD 0 1 twoNbrs_wf (by decide)

/-- Claim C10: when the loop returns a goal node `nd`, the `g` bookkeeping is
consistent along its whole parent chain (the root has `g = 0` and every child
has `g = parent.g + d parent.city city`), its parent — and recursively every
ancestor, with exactly the field values recorded at closure — is an element of
the final closed list, the path `a_star` returns is `nd`'s reversed parent
chain, and the sum of the edge distances along that path equals `nd.g`. -/
theorem path_cost_eq_goal_g (n : ℕ) (nbrs : City → List City) (d : City → City → α)
    (start goal : City) (nd : Node α) (closedF : List (Node α))
    (h : aStarLoop nbrs d goal (n + 1) [initNode start] [] = some (some nd, closedF)) :
    gOK d nd ∧ (∀ p, nd.parent = some p → p ∈ closedF) ∧ parentsIn closedF nd ∧
    a_star n nbrs d start goal = some nd.backPath.reverse ∧
    pathCost d nd.backPath.reverse = nd.g := by
  have hinv : ∀ x ∈ ([initNode start] : List (Node α)) ++ [],
      chainOK nbrs start x ∧ gOK d x ∧ parentsIn ([] : List (Node α)) x := by
    intro x hx
    have hxi : x = initNode start := by simpa using hx
    subst hxi
    exact ⟨rfl, rfl, trivial⟩
  obtain ⟨hchain, hg, hpar, hcity⟩ :=
    aStarLoop_main nbrs d start goal (n + 1) [initNode start] [] (some nd) closedF
      h hinv nd rfl
  refine ⟨hg, ?_, hpar, ?_, backPath_reverse_cost d nd hg⟩
  · intro p hp
    cases nd with
    | root c g hh ff => simp at hp
    | child c g hh ff pp =>
      have hppeq : pp = p := by simpa using hp
      subst hppeq
      exact hpar.1
  · unfold a_star
    rw [h]

theorem path_cost_eq_goal_g_witness :
    gOK twoD (Node.child 1 5 0 5 (Node.root 0 (0 : ℤ) 0 0)) ∧
    (∀ p, (Node.child 1 5 0 5 (Node.root 0 (0 : ℤ) 0 0)).parent = some p →
      p ∈ [Node.root 0 (0 : ℤ) 0 0, Node.child 1 5 0 5 (Node.root 0 0 0 0)]) ∧
    parentsIn [Node.root 0 (0 : ℤ) 0 0, Node.child 1 5 0 5 (Node.root 0 0 0 0)]
      (Node.child 1 5 0 5 (Node.root 0 (0 : ℤ) 0 0)) ∧
    a_star 2 twoNbrs twoD 0 1 =
      some (Node.child 1 5 0 5 (Node.root 0 (0 : ℤ) 0 0)).backPath.reverse ∧
    pathCost twoD (Node.child 1 5 0 5 (Node.root 0 (0 : ℤ) 0 0)).backPath.reverse =
      (Node.child 1 5 0 5 (Node.root 0 (0 : ℤ) 0 0)).g :=
  path_cost_eq_goal_g 2 twoNbrs twoD 0 1
    (Node.child 1 5 0 5 (Node.root 0 (0 : ℤ) 0 0))
    [Node.root 0 (0 : ℤ) 0 0, Node.child 1 5 0 5 (Node.root 0 0 0 0)] (by decide)

end Claims
